import Mathlib

/-!
# Verification of the `postings` segmented full-text index

Shallow embedding of the core data structures and operations of the
`harshagw/postings` repository (Go), together with proofs and refutations
of the frozen specification claims.

All machine integers of the source (`uint64`) are modelled as `Nat`; the
operations that can wrap in Go are modelled with an explicit `% 2^64`
(`wadd`, `wsub`).  Fallible operations return `Option`/`Except`.
-/
/-- Word size of Go's `uint64`, used wherever wrap-around matters. -/
def U64 : Nat := 2 ^ 64

/-- `uint64` addition (`a + b` in Go wraps modulo `2^64`). -/
def wadd (a b : Nat) : Nat := (a + b) % U64

/-- `uint64` subtraction (`a - b` in Go wraps modulo `2^64`; for
`b ≤ a < 2^64` this is ordinary subtraction). -/
def wsub (a b : Nat) : Nat := (a + U64 - b % U64) % U64

/-! ## Varint codec

The segment codec serializes `uint64` values with Go's unsigned varint
encoding (`binary.PutUvarint` / the repository's own
`byteReader.ReadUvarint` in `internal/segment/search.go`): little-endian
base-128 digits, each non-final byte with the continuation bit `0x80` set.

`putUvarintAux` carries explicit fuel so that the recursion is structural
(the fuel is always at least the encoded value, which bounds the recursion
depth; the fuel-exhausted branch is unreachable for `putUvarint`). -/
def putUvarintAux : Nat → Nat → List Nat
  | 0, n => [n % 128]
  | fuel + 1, n => if n < 128 then [n] else (n % 128 + 128) :: putUvarintAux fuel (n / 128)

/-- Go `binary.PutUvarint`: encode `n` as an unsigned varint byte list. -/
def putUvarint (n : Nat) : List Nat := putUvarintAux n n

/-- The accumulator loop of `byteReader.ReadUvarint`
(`x |= (b & 0x7f) << s; s += 7` until a byte with the high bit clear). -/
def readUvarintAux : List Nat → Nat → Nat → Option (Nat × List Nat)
  | [], _, _ => none
  | b :: rest, x, s =>
    if b < 128 then some (x + b * 2 ^ s, rest)
    else readUvarintAux rest (x + b % 128 * 2 ^ s) (s + 7)

/-- Read one unsigned varint from the front of `data`, returning the value
and the remaining bytes. -/
def readUvarint (data : List Nat) : Option (Nat × List Nat) := readUvarintAux data 0 0

/-! ## Posting lists and their wire format

`internal/segment/codec.go`: a posting is `(DocNum, Frequency, Positions)`
(all `uint64`); `EncodePostings` writes `count`, the docnum deltas, the
frequencies, and per posting the position count followed by position
deltas; `DecodePostings` reads them back in the same order. -/
structure Posting where
  docNum : Nat
  frequency : Nat
  positions : List Nat
deriving DecidableEq, Repr

/-- The docnum-delta loop of `EncodePostings`
(`delta := p.DocNum - prevDocNum`, varint-encoded, `prev` updated). -/
def encodeDeltas (prev : Nat) : List Nat → List Nat
  | [] => []
  | d :: ds => putUvarint (wsub d prev) ++ encodeDeltas d ds

/-- The frequency loop of `EncodePostings`. -/
def encodeFreqs : List Posting → List Nat
  | [] => []
  | p :: ps => putUvarint p.frequency ++ encodeFreqs ps

/-- The positions loop of `EncodePostings`: per posting, the position count
then delta-coded positions (prev starts at 0 for each posting). -/
def encodePositions : List Posting → List Nat
  | [] => []
  | p :: ps => putUvarint p.positions.length ++ encodeDeltas 0 p.positions ++ encodePositions ps

/-- `segment.EncodePostings`: full wire format of a posting list. -/
def EncodePostings (postings : List Posting) : List Nat :=
  putUvarint postings.length
    ++ encodeDeltas 0 (postings.map Posting.docNum)
    ++ encodeFreqs postings
    ++ encodePositions postings

/-- The docnum-delta read loop of `DecodePostings`
(`postings[i].DocNum = prevDocNum + delta`). -/
def readDeltas : Nat → Nat → List Nat → Option (List Nat × List Nat)
  | 0, _, data => some ([], data)
  | count + 1, prev, data =>
    match readUvarint data with
    | none => none
    | some (delta, rest) =>
      let d := wadd prev delta
      match readDeltas count d rest with
      | none => none
      | some (ds, rest2) => some (d :: ds, rest2)

/-- The frequency read loop of `DecodePostings`. -/
def readFreqs : Nat → List Nat → Option (List Nat × List Nat)
  | 0, data => some ([], data)
  | count + 1, data =>
    match readUvarint data with
    | none => none
    | some (freq, rest) =>
      match readFreqs count rest with
      | none => none
      | some (fs, rest2) => some (freq :: fs, rest2)

/-- The positions read loop of `DecodePostings`: per posting, a position
count then that many delta-coded positions. -/
def readPositionsLists : Nat → List Nat → Option (List (List Nat) × List Nat)
  | 0, data => some ([], data)
  | count + 1, data =>
    match readUvarint data with
    | none => none
    | some (posCount, rest) =>
      match readDeltas posCount 0 rest with
      | none => none
      | some (ps, rest2) =>
        match readPositionsLists count rest2 with
        | none => none
        | some (pss, rest3) => some (ps :: pss, rest3)

/-- Reassemble the three parallel arrays read by `DecodePostings` into the
posting slice it returns. -/
def zipPostings : List Nat → List Nat → List (List Nat) → List Posting
  | d :: ds, f :: fs, ps :: pss => ⟨d, f, ps⟩ :: zipPostings ds fs pss
  | _, _, _ => []

/-- `segment.DecodePostings`: decode a posting list from the front of
`data`; trailing bytes are ignored (the mmap reader hands the whole rest
of the region to the decoder). -/
def DecodePostings (data : List Nat) : Option (List Posting) :=
  match readUvarint data with
  | none => none
  | some (count, r1) =>
    match readDeltas count 0 r1 with
    | none => none
    | some (docs, r2) =>
      match readFreqs count r2 with
      | none => none
      | some (freqs, r3) =>
        match readPositionsLists count r3 with
        | none => none
        | some (poss, _) => some (zipPostings docs freqs poss)

/-! ## Phrase matching

`internal/search/phrase.go`.  `phraseMatch` takes the per-term position
lists of one document and checks adjacency; `phraseMatchInSegment` /
`phraseMatchInBuilder` build, for each candidate document, the array
`docPositions[d][i] = positions of term i in document d` (empty when the
term does not occur in `d`), seed candidates from the first term's
postings, require every entry non-empty (`valid`), and then call
`phraseMatch`.  `positionsFor` extracts one document's positions from one
term's posting list. -/
/-- `phraseMatch` (phrase.go:106-125): true iff some start position of the
first term is followed at offsets `1..n-1` by the later terms.
`expectedPos := start + uint64(i)` is `uint64` arithmetic, hence `wadd`. -/
def phraseMatch (positions : List (List Nat)) : Bool :=
  match positions with
  | [] => false
  | p0 :: rest =>
    p0.any fun start =>
      (List.range rest.length).all fun j =>
        ((p0 :: rest).getD (j + 1) []).contains (wadd start (j + 1))

/-- The positions recorded for document `d` in one term's posting list
(`docPositions[p.DocNum][termIdx] = p.Positions`); empty if absent.
Posting lists are strictly increasing by docnum, so at most one posting
matches. -/
def positionsFor (postings : List Posting) (d : Nat) : List Nat :=
  match postings.find? (fun p => p.docNum == d) with
  | some p => p.positions
  | none => []

/-- Per-document phrase decision of `phraseMatchInSegment`
(phrase.go:49-104): every term must have a non-empty postings list (the
early return), `d` must appear in the first term's postings (the
`docPositions` seed), every per-term position list for `d` must be
non-empty (the `valid` check), and the adjacency test must succeed. -/
def phraseDocMatch (termPostings : List (List Posting)) (d : Nat) : Bool :=
  termPostings.all (fun tp => !tp.isEmpty) &&
  (termPostings.headD []).any (fun p => p.docNum == d) &&
  (termPostings.map (fun tp => positionsFor tp d)).all (fun l => !l.isEmpty) &&
  phraseMatch (termPostings.map (fun tp => positionsFor tp d))

/-- The specification's phrase formula: there is a start position `p` of
the first token such that `p + i` is a position of token `i` for every
`i ∈ 1..n-1`. -/
def phraseSpecMatch (termPostings : List (List Posting)) (d : Nat) : Prop :=
  ∃ p ∈ positionsFor (termPostings.headD []) d,
    ∀ i, 1 ≤ i → i < termPostings.length → (p + i) ∈ positionsFor (termPostings.getD i []) d

/-! ## One-hit encoding and the field index writer

`internal/segment/codec.go` defines the one-hit constants; the builder's
`writeFieldIndex` (the only posting writer in the repository) writes the
postings region and the FST term/value pairs for one field. -/
/-- `OneHitFlag` — high bit of a `uint64` FST value. -/
def OneHitFlag : Nat := 2 ^ 63

/-- `IsOneHit`: `(val & OneHitFlag) != 0`. -/
def IsOneHit (val : Nat) : Bool := val &&& OneHitFlag != 0

/-- `EncodeOneHit`: `OneHitFlag | docNum`. -/
def EncodeOneHit (docNum : Nat) : Nat := OneHitFlag ||| docNum

/-- `DecodeOneHit`: `val &^ OneHitFlag` clears the top bit; for `uint64`
values this equals `val % 2^63`. -/
def DecodeOneHit (val : Nat) : Nat := val % OneHitFlag

/-- Codepoint-lexicographic string order, byte-for-byte identical to Go's
`sort.Strings` order on UTF-8 strings (UTF-8 preserves codepoint order);
defined structurally so that concrete segments evaluate. -/
def charListLe : List Char → List Char → Bool
  | [], _ => true
  | _ :: _, [] => false
  | a :: as, b :: bs =>
    if a.toNat < b.toNat then true
    else if a.toNat = b.toNat then charListLe as bs
    else false

/-- `a ≤ b` on strings, as used by `sort.Strings`. -/
def strLe (a b : String) : Bool := charListLe a.data b.data

/-- Insertion step of the stable insertion sort standing in for Go's
`sort.Strings` / `sort.Slice`. -/
def insertBy (le : α → α → Bool) (a : α) : List α → List α
  | [] => [a]
  | b :: bs => if le a b then a :: b :: bs else b :: insertBy le a bs

/-- Sort a list with the given comparator. -/
def sortBy (le : α → α → Bool) (l : List α) : List α := l.foldr (insertBy le) []

/-- Association-list lookup, modelling a Go map read (`m[k]`). -/
def alistGet (m : List (κ × α)) (k : κ) [BEq κ] : Option α :=
  (m.find? (fun e => e.1 == k)).map (·.2)

/-- Association-list update, modelling a Go map write (`m[k] = v`). -/
def alistSet [BEq κ] (m : List (κ × α)) (k : κ) (v : α) : List (κ × α) :=
  match m with
  | [] => [(k, v)]
  | e :: es => if e.1 == k then (k, v) :: es else e :: alistSet es k v

/-- Output of `writeFieldIndex` for one field: the sorted `(term, value)`
pairs inserted into the field's FST and the bytes of the field's postings
region. -/
structure FieldData where
  fstEntries : List (String × Nat)
  region : List Nat
deriving DecidableEq, Repr

/-- `Builder.writeFieldIndex` (codec.go:384-448): iterate the field's terms
in ascending order; for each term, sort its postings by docnum, record the
relative offset of the encoded list as the term's FST value, and append
the encoded list to the postings region.  Note that it never calls
`EncodeOneHit`: every FST value is a relative offset. -/
def writeFieldIndex (terms : List (String × List Posting)) : FieldData :=
  (sortBy (fun a b => strLe a.1 b.1) terms).foldl
    (fun fd tp =>
      { fstEntries := fd.fstEntries ++ [(tp.1, fd.region.length)],
        region := fd.region
          ++ EncodePostings (sortBy (fun p q => decide (p.docNum < q.docNum)) tp.2) })
    ⟨[], []⟩

/-- `Builder.writeFieldsIndex`: field names in ascending order, each with
its `writeFieldIndex` output. -/
def writeFieldsIndex (fields : List (String × List (String × List Posting))) :
    List (String × FieldData) :=
  (sortBy (fun a b => strLe a.1 b.1) fields).map (fun fe => (fe.1, writeFieldIndex fe.2))

/-! ## The segment builder

`internal/segment/builder.go` (the variant with `FieldLengths`, whose
`NumDocs` excludes deleted documents).  Go maps are modelled as
association lists (iteration order fixed to insertion order); the
analyzer, an injected interface in Go, is passed as a function argument
`an : String → List (token × position)`. -/
structure Builder where
  fields : List (String × List (String × List Posting))
  fieldLengths : List (String × List Nat)
  docs : List (List (String × String))
  docIDs : List String
  deleted : Finset Nat
  numDocs : Nat
deriving DecidableEq

/-- `NewBuilder`. -/
def newBuilder : Builder := ⟨[], [], [], [], ∅, 0⟩

/-- `Builder.NumDocs`: the number of non-deleted documents. -/
def builderNumDocs (b : Builder) : Nat := b.numDocs - b.deleted.card

/-- `Builder.TotalDocs`: all documents, including deleted ones. -/
def builderTotalDocs (b : Builder) : Nat := b.numDocs

/-- `Builder.IsDeleted`. -/
def builderIsDeleted (b : Builder) (d : Nat) : Bool := decide (d ∈ b.deleted)

/-- `Builder.FieldLength`: recorded token count of a field in a document,
0 when absent. -/
def builderFieldLength (b : Builder) (f : String) (d : Nat) : Nat :=
  ((alistGet b.fieldLengths f).getD []).getD d 0

/-- Group analyzed tokens by term, accumulating positions in token order
(the `termPositions` map of `Builder.Add`). -/
def groupByTerm (tokens : List (String × Nat)) : List (String × List Nat) :=
  tokens.foldl
    (fun acc tp =>
      match alistGet acc tp.1 with
      | some ps => alistSet acc tp.1 (ps ++ [tp.2])
      | none => acc ++ [(tp.1, [tp.2])])
    []

/-- `for len(lengths) <= docNum { append 0 }; lengths[docNum] = v`. -/
def setFieldLength (ls : List Nat) (docNum v : Nat) : List Nat :=
  (ls ++ List.replicate (docNum + 1 - ls.length) 0).set docNum v

/-- One user field of `Builder.Add`: record the token count and append one
posting per distinct term. -/
def builderAddField (b : Builder) (docNum : Nat) (fieldName : String)
    (tokens : List (String × Nat)) : Builder :=
  let fieldTerms := (alistGet b.fields fieldName).getD []
  let lens := (alistGet b.fieldLengths fieldName).getD []
  let fieldTerms' := (groupByTerm tokens).foldl
    (fun ft tp =>
      alistSet ft tp.1
        ((alistGet ft tp.1).getD [] ++ [⟨docNum, tp.2.length, tp.2⟩]))
    fieldTerms
  { b with
    fields := alistSet b.fields fieldName fieldTerms',
    fieldLengths := alistSet b.fieldLengths fieldName (setFieldLength lens docNum tokens.length) }

/-- `Builder.Add`: assign the next docnum, store the document and its
external id, overwrite the `_id` posting `{docNum, freq 1, positions [1]}`,
and index every (string) field. -/
def builderAdd (an : String → List (String × Nat)) (b : Builder)
    (externalID : String) (doc : List (String × String)) : Builder :=
  let docNum := b.numDocs
  let b1 := { b with
    numDocs := b.numDocs + 1,
    docs := b.docs ++ [doc],
    docIDs := b.docIDs ++ [externalID] }
  let b2 := { b1 with
    fields := alistSet b1.fields "_id"
      (alistSet ((alistGet b1.fields "_id").getD []) externalID [⟨docNum, 1, [1]⟩]) }
  doc.foldl (fun acc fv => builderAddField acc docNum fv.1 (an fv.2)) b2

/-- `Builder.Delete`: linear scan for the first non-deleted document with
this external id; mark it deleted. -/
def builderDelete (b : Builder) (externalID : String) : Builder :=
  match (List.range b.docIDs.length).find?
      (fun i => b.docIDs.getD i "" == externalID && !(decide (i ∈ b.deleted))) with
  | some i => { b with deleted := insert i b.deleted }
  | none => b

/-! ## The segment reader

`internal/segment/segment.go` (the mmap'd `Segment`) and
`internal/segment/search.go`.  A built segment is modelled by the data the
footer and regions carry; the FST of a field is its sorted
`(term, value)` list with `alistGet` standing in for the exact lookup.
The per-field BM25 statistics (`TotalTokens`/`DocCount`) feed only the
floating-point scorer and are not modelled. -/
structure Seg where
  fields : List (String × FieldData)
  docIDs : List String
  fieldLengths : List (String × List Nat)
  storedDocs : List (List (String × String))
  numDocs : Nat
deriving DecidableEq

/-- `Builder.Build` followed by `segment.Open`: the segment observes the
builder's fields (written by `writeFieldsIndex`), external ids, field
lengths, stored docs and total (including deleted) document count. -/
def buildSegment (b : Builder) : Seg :=
  { fields := writeFieldsIndex b.fields,
    docIDs := b.docIDs,
    fieldLengths := b.fieldLengths,
    storedDocs := b.docs,
    numDocs := builderTotalDocs b }

/-- `Segment.Fields`: the indexed field names, in footer order. -/
def segFields (s : Seg) : List String := s.fields.map (·.1)

/-- `Segment.ExternalID`: `none` when the docnum is out of range. -/
def segExternalID (s : Seg) (d : Nat) : Option String :=
  if d < s.numDocs then some (s.docIDs.getD d "") else none

/-- `Segment.FieldLength`: footer `field_lengths[field][docNum]`, 0 when
absent. -/
def segFieldLength (s : Seg) (f : String) (d : Nat) : Nat :=
  ((alistGet s.fieldLengths f).getD []).getD d 0

/-- `Segment.Search` (search.go:54-88): load the field's FST (error when
the field does not exist), look the term up (no hit: empty result), decode
the posting list at `PostingsOffset + val`, and filter deleted docnums.
This is the variant without a one-hit branch, matching the cited code. -/
def segSearch (s : Seg) (term fieldName : String) (deleted : Finset Nat) :
    Except String (List Posting) :=
  match alistGet s.fields fieldName with
  | none => .error ("field not found: " ++ fieldName)
  | some fd =>
    match alistGet fd.fstEntries term with
    | none => .ok []
    | some val =>
      match DecodePostings (fd.region.drop val) with
      | none => .error "decode error"
      | some postings => .ok (postings.filter (fun p => !(decide (p.docNum ∈ deleted))))

/-- `Segment.DocNumbers` (segment.go:110-130): look every external id up
in the `_id` FST and collect the docnums of the values that are one-hit
encoded ("_id terms are always 1-hit encoded"); non-one-hit values are
skipped.  A missing `_id` FST yields the empty bitmap. -/
def docNumbers (s : Seg) (externalIDs : List String) : Finset Nat :=
  match alistGet s.fields "_id" with
  | none => ∅
  | some fd =>
    externalIDs.foldl
      (fun bm id =>
        match alistGet fd.fstEntries id with
        | none => bm
        | some val => if IsOneHit val then insert (DecodeOneHit val) bm else bm)
      ∅

/-! ## The searcher's term-search path

`internal/search/searcher.go:33-245`.  A match carries the doc id, the
term frequency handed to the scorer (`float64(p.Frequency)` in Go —
frequencies are small integers, represented exactly, so `Nat` here), the
matched field's length, the field, and the segment index.  The `seen` map
threads through segments (newest first) and then the builder; only the
first copy of an external id produces a match.  `scoreAndSort` maps
matches one-to-one to scored results, so the observable set of document
ids of a query is the set of match doc ids. -/
structure SMatch where
  docID : String
  tf : Nat
  fieldLength : Nat
  field : String
  segmentIdx : Int
deriving DecidableEq

/-- `seen` map plus accumulated matches. -/
abbrev SearchAcc := List String × List SMatch

/-- `Searcher.searchSegmentField` (searcher.go:139-163): a segment error or
empty result contributes nothing (the error is swallowed); otherwise each
posting whose external id resolves and was not seen yet appends a match
with the posting's frequency and the field's length. -/
def searchSegmentField (seg : Seg) (deleted : Finset Nat) (term f : String)
    (segIdx : Int) (acc : SearchAcc) : SearchAcc :=
  match segSearch seg term f deleted with
  | .error _ => acc
  | .ok postings =>
    postings.foldl
      (fun a p =>
        match segExternalID seg p.docNum with
        | none => a
        | some extID =>
          if extID ∈ a.1 then a
          else (a.1 ++ [extID],
                a.2 ++ [⟨extID, p.frequency, segFieldLength seg f p.docNum, f, segIdx⟩]))
      acc

/-- `Searcher.searchSegment` (searcher.go:122-137): an explicit field is
searched alone; an empty field name searches `seg.Fields()` — all fields
of the segment, `_id` included. -/
def searchSegment (seg : Seg) (deleted : Finset Nat) (term field : String)
    (segIdx : Int) (acc : SearchAcc) : SearchAcc :=
  let fields := if field == "" then segFields seg else [field]
  fields.foldl (fun a f => searchSegmentField seg deleted term f segIdx a) acc

/-- `Searcher.searchBuilderField` (searcher.go:181-214). -/
def searchBuilderField (b : Builder) (term f : String) (acc : SearchAcc) : SearchAcc :=
  match alistGet b.fields f with
  | none => acc
  | some fieldTerms =>
    match alistGet fieldTerms term with
    | none => acc
    | some postings =>
      postings.foldl
        (fun a p =>
          if builderIsDeleted b p.docNum then a
          else if p.docNum < b.docIDs.length then
            let extID := b.docIDs.getD p.docNum ""
            if extID ∈ a.1 then a
            else (a.1 ++ [extID],
                  a.2 ++ [⟨extID, p.frequency, builderFieldLength b f p.docNum, f, -1⟩])
          else a)
        acc

/-- `Searcher.searchBuilder` (searcher.go:165-179): an empty field name
iterates every field of the builder, `_id` included. -/
def searchBuilder (b : Builder) (term field : String) (acc : SearchAcc) : SearchAcc :=
  if field != "" then searchBuilderField b term field acc
  else b.fields.foldl (fun a fe => searchBuilderField b term fe.1 a) acc

/-- `Searcher.Search` (searcher.go:42-59): iterate the snapshot's segments
newest-first, then the builder, and return the matches.  The Go function's
error result is always `nil`; the `Except` result mirrors that signature
and is always `.ok`. -/
def searcherSearch (segs : List (Seg × Finset Nat)) (builder : Option Builder)
    (term field : String) : Except String (List SMatch) :=
  let acc : SearchAcc :=
    (List.range segs.length).reverse.foldl
      (fun a i =>
        match segs.getD i (⟨[], [], [], [], 0⟩, ∅) with
        | (seg, deleted) => searchSegment seg deleted term field (Int.ofNat i) a)
      ([], [])
  let acc :=
    match builder with
    | none => acc
    | some b => searchBuilder b term field acc
  .ok acc.2

deriving instance DecidableEq for Except

/-! ## Multi-field selection and the prefix primitive

`Searcher.getFieldsToSearch` (searcher.go:216-245) collects every field of
every snapshot segment and of the builder except `_id` (the Go set is a
map; the model keeps first-occurrence order).  It is used by the phrase,
prefix, regex/fuzzy and docSet paths — but not by `Searcher.Search`. -/
/-- One step of the field-set accumulation: skip `_id` and duplicates. -/
def addFieldName (acc : List String) (f : String) : List String :=
  if f != "_id" && !(acc.contains f) then acc ++ [f] else acc

/-- `Searcher.getFieldsToSearch`. -/
def getFieldsToSearch (segs : List (Seg × Finset Nat)) (builder : Option Builder)
    (field : String) : List String :=
  if field != "" then [field]
  else
    let acc := segs.foldl (fun acc sd => (segFields sd.1).foldl addFieldName acc) []
    match builder with
    | none => acc
    | some b => (b.fields.map (·.1)).foldl addFieldName acc

/-- Byte-wise prefix test (structural, matching `strings.HasPrefix` /
the FST range `[prefix, successor(prefix))` on sorted byte strings). -/
def charListPref : List Char → List Char → Bool
  | [], _ => true
  | _ :: _, [] => false
  | a :: as, b :: bs => a.toNat == b.toNat && charListPref as bs

/-- `strings.HasPrefix pre s`. -/
def strHasPref (pre s : String) : Bool := charListPref pre.data s.data

/-- Merge one posting into the `docPostings` map of
`Segment.PrefixPostings` (search.go:186-205): an existing entry keeps its
positions and accumulates the frequency; a new docnum is inserted. -/
def upsertPosting (m : List (Nat × Posting)) (p : Posting) : List (Nat × Posting) :=
  match m with
  | [] => [(p.docNum, p)]
  | e :: es =>
    if e.1 == p.docNum then (e.1, { e.2 with frequency := e.2.frequency + p.frequency }) :: es
    else e :: upsertPosting es p

/-- Merge a decoded posting list into the map, skipping deleted docnums. -/
def mergePostingList (deleted : Finset Nat) (m : List (Nat × Posting))
    (ps : List Posting) : List (Nat × Posting) :=
  ps.foldl (fun m p => if decide (p.docNum ∈ deleted) then m else upsertPosting m p) m

/-- The posting lists decoded while iterating the field's FST over
`[prefix, successor(prefix))` — on the sorted term list this is exactly
the terms with that prefix; lists whose decode fails are skipped
(`if decodeErr == nil`). -/
def prefDecodedLists (fd : FieldData) (pre : String) : List (List Posting) :=
  (fd.fstEntries.filter (fun e => strHasPref pre e.1)).filterMap
    (fun e => DecodePostings (fd.region.drop e.2))

/-- `Segment.PrefixPostings` (search.go:167-221): union the postings of
all prefix-matching terms per docnum, summing frequencies; error when the
field does not exist. -/
def prefPostings (s : Seg) (pre fieldName : String) (deleted : Finset Nat) :
    Except String (List Posting) :=
  match alistGet s.fields fieldName with
  | none => .error ("field not found: " ++ fieldName)
  | some fd =>
    .ok ((((prefDecodedLists fd pre).foldl (mergePostingList deleted) []).map (·.2)))

/-- The segment loop of `Searcher.prefixSearch` (prefix_query.go:12-34):
segments in ascending order, each field, errors skipped, matches carry the
merged posting's frequency (`tf: float64(p.Frequency)`). -/
def prefSearchSegments (segs : List (Seg × Finset Nat)) (fields : List String)
    (pre : String) (acc : SearchAcc) : SearchAcc :=
  (List.range segs.length).foldl
    (fun a i =>
      match segs.getD i (⟨[], [], [], [], 0⟩, ∅) with
      | (seg, deleted) =>
        fields.foldl
          (fun a f =>
            match prefPostings seg pre f deleted with
            | .error _ => a
            | .ok postings =>
              postings.foldl
                (fun a p =>
                  match segExternalID seg p.docNum with
                  | none => a
                  | some extID =>
                    if extID ∈ a.1 then a
                    else (a.1 ++ [extID],
                          a.2 ++ [⟨extID, p.frequency, segFieldLength seg f p.docNum,
                                   f, Int.ofNat i⟩]))
                a)
          a)
    acc

/-- The builder loop of `Searcher.prefixSearch` (prefix_query.go:37-65):
every term of the field with the prefix, every non-deleted posting, with
the posting's own frequency. -/
def prefSearchBuilder (b : Builder) (fields : List String) (pre : String)
    (acc : SearchAcc) : SearchAcc :=
  fields.foldl
    (fun a f =>
      match alistGet b.fields f with
      | none => a
      | some fieldTerms =>
        fieldTerms.foldl
          (fun a te =>
            if strHasPref pre te.1 then
              te.2.foldl
                (fun a p =>
                  if builderIsDeleted b p.docNum then a
                  else if p.docNum < b.docIDs.length then
                    let extID := b.docIDs.getD p.docNum ""
                    if extID ∈ a.1 then a
                    else (a.1 ++ [extID],
                          a.2 ++ [⟨extID, p.frequency, builderFieldLength b f p.docNum, f, -1⟩])
                  else a)
                a
            else a)
          a)
    acc

/-- `Searcher.prefixSearch` (prefix_query.go:5-68), up to `scoreAndSort`
(which maps matches one-to-one to scored results). -/
def prefSearch (segs : List (Seg × Finset Nat)) (builder : Option Builder)
    (pre field : String) : List SMatch :=
  let fields := getFieldsToSearch segs builder field
  let acc := prefSearchSegments segs fields pre ([], [])
  let acc :=
    match builder with
    | none => acc
    | some b => prefSearchBuilder b fields pre acc
  acc.2

/-! ## The metadata store

`internal/store/metadata.go`.  Bolt buckets become association lists;
`GetDeletions` allocates a fresh bitmap on every call (`roaring.New()`
then `ReadFrom`), so readers always receive clones of persisted state.
Segment ids are the zero-padded decimal renderings of `epoch+1`; the
model keeps them as the numbers themselves. -/
structure MetaState where
  epoch : Nat
  segmentsList : List Nat
  deletions : List (Nat × Finset Nat)
  docids : List (String × Nat × Nat)
deriving DecidableEq

/-- The flush metadata transaction (ops.go:59-86): `IncrementEpoch`
(`epoch++` on a `uint64`), merge each non-empty pending bitmap into the
persisted deletions, persist the builder's own tombstones under the new
segment id when non-empty, and append the new segment to the list. -/
def flushTx (pending : List (Nat × Finset Nat)) (builderDeleted : Finset Nat)
    (currentSegmentIDs : List Nat) (segmentID : Nat) (m : MetaState) : MetaState :=
  let m1 := { m with epoch := wadd m.epoch 1 }
  let m2 := pending.foldl
    (fun mm sp =>
      if sp.2.card = 0 then mm
      else
        { mm with deletions :=
            alistSet mm.deletions sp.1 (((alistGet mm.deletions sp.1).getD ∅) ∪ sp.2) })
    m1
  let m3 :=
    if builderDeleted.card ≠ 0 then
      { m2 with deletions := alistSet m2.deletions segmentID builderDeleted }
    else m2
  { m3 with segmentsList := currentSegmentIDs ++ [segmentID] }

/-- Delete a key from a bucket. -/
def alistDelete [BEq κ] (m : List (κ × α)) (k : κ) : List (κ × α) :=
  m.filter (fun e => !(e.1 == k))

/-- The merge metadata transaction (ops.go:381-404): `IncrementEpoch`,
re-point every merged document's docid mapping at the new segment, drop
the deletion bitmaps of the merged segments, and install the new segment
list. -/
def mergeTx (builderDocIDs : List String) (newSegmentID : Nat) (mergedIDs : List Nat)
    (newList : List Nat) (m : MetaState) : MetaState :=
  let m1 := { m with epoch := wadd m.epoch 1 }
  let m2 := (List.range builderDocIDs.length).foldl
    (fun mm i =>
      { mm with docids := alistSet mm.docids (builderDocIDs.getD i "") (newSegmentID, i) })
    m1
  let m3 := mergedIDs.foldl
    (fun mm sid => { mm with deletions := alistDelete mm.deletions sid })
    m2
  { m3 with segmentsList := newList }

/-! ## The index coordinator

`internal/index/index.go` and `internal/index/ops.go`.  Go's
`idx.builder` is a pointer to a mutable `Builder`; the model keeps a heap
of builder objects (`builders`) with `cur` as the live pointer, so that
snapshot aliasing is represented faithfully: a snapshot captures the
pointer (`cur`), not a copy. -/
structure IdxState where
  meta : MetaState
  segments : List (Nat × Seg)
  pendingDeletions : List (Nat × Finset Nat)
  builders : List Builder
  cur : Nat
  epoch : Nat
  flushThreshold : Nat
deriving DecidableEq

/-- Dereference the live builder pointer. -/
def curBuilder (st : IdxState) : Builder := st.builders.getD st.cur newBuilder

/-- `Index.markObsoletes` (index.go:142-154): for every persisted segment,
OR `seg.DocNumbers(docIDs)` into that segment's pending deletions;
segments with an empty result are skipped. -/
def markObsoletes (st : IdxState) (docIDs : List String) : IdxState :=
  let pend := st.segments.foldl
    (fun pend sseg =>
      let obsoletes := docNumbers sseg.2 docIDs
      if obsoletes.card = 0 then pend
      else alistSet pend sseg.1 (((alistGet pend sseg.1).getD ∅) ∪ obsoletes))
    st.pendingDeletions
  { st with pendingDeletions := pend }

/-- `Index.flushInternal` (ops.go:37-103): no-op when the builder has no
(non-deleted) documents; otherwise build the segment file, run the flush
transaction, open and append the segment, clear pending deletions, and
replace the builder with a fresh one (a new heap cell — the old object is
no longer reachable from the index but still referenced by snapshots). -/
def flushInternal (st : IdxState) : IdxState :=
  let b := curBuilder st
  if builderNumDocs b = 0 then st
  else
    let segmentID := wadd st.meta.epoch 1
    let seg := buildSegment b
    let m := flushTx st.pendingDeletions b.deleted st.meta.segmentsList segmentID st.meta
    { st with
      meta := m,
      segments := st.segments ++ [(segmentID, seg)],
      epoch := m.epoch,
      pendingDeletions := [],
      builders := st.builders ++ [newBuilder],
      cur := st.builders.length }

/-- `Index.Index` (index.go:108-126): delete any in-builder copy, mark
persisted copies obsolete, add the document, and flush when
`builder.NumDocs() >= flushThreshold`. -/
def indexOp (an : String → List (String × Nat)) (st : IdxState)
    (docID : String) (doc : List (String × String)) : IdxState :=
  let st1 := { st with builders := st.builders.set st.cur (builderDelete (curBuilder st) docID) }
  let st2 := markObsoletes st1 [docID]
  let st3 := { st2 with builders := st2.builders.set st2.cur (builderAdd an (curBuilder st2) docID doc) }
  if st3.flushThreshold ≤ builderNumDocs (curBuilder st3) then flushInternal st3 else st3

/-- `Index.Delete` (index.go:128-139): like `Index` minus the add. -/
def deleteOp (st : IdxState) (docID : String) : IdxState :=
  let st1 := { st with builders := st.builders.set st.cur (builderDelete (curBuilder st) docID) }
  markObsoletes st1 [docID]

/-- `Index.getDeletions` (ops.go:14-23): `Metadata.GetDeletions` returns a
freshly allocated bitmap (clone of the persisted bytes), into which the
pending bitmap is OR'd — the snapshot therefore holds values no writer
mutates. -/
def getDeletions (st : IdxState) (segID : Nat) : Finset Nat :=
  ((alistGet st.meta.deletions segID).getD ∅) ∪ ((alistGet st.pendingDeletions segID).getD ∅)

/-- `IndexSnapshot` (snapshot.go): the captured segment list with cloned
deletion bitmaps, the builder pointer, and the epoch. -/
structure Snap where
  segments : List (Nat × Seg × Finset Nat)
  builderRef : Nat
  epoch : Nat
deriving DecidableEq

/-- `Index.Snapshot` (ops.go:106-129). -/
def snapshot (st : IdxState) : Snap :=
  { segments := st.segments.map (fun sseg => (sseg.1, sseg.2, getDeletions st sseg.1)),
    builderRef := st.cur,
    epoch := st.epoch }

/-- `IndexSnapshot.Builder()` observed against a (possibly later) index
state: dereference the captured pointer in the current heap. -/
def snapBuilder (sn : Snap) (st : IdxState) : Builder :=
  st.builders.getD sn.builderRef newBuilder

/-- `IndexSnapshot.Segments()`: the captured list, a value owned by the
snapshot. -/
def snapSegments (sn : Snap) : List (Seg × Finset Nat) :=
  sn.segments.map (·.2)

/-- `Index.Merge` (ops.go:295-418): rebuild the non-deleted documents of
the chosen segments into a fresh local builder (re-tokenizing stored
docs), build and open the new segment, run the merge transaction, and
install the new segment list.  Fewer than two segments, or an unknown id,
is an error that leaves the state unchanged. -/
def mergeOp (an : String → List (String × Nat)) (st : IdxState)
    (segmentIDs : List Nat) : IdxState :=
  if segmentIDs.length < 2 then st
  else
    let segsToMerge := st.segments.filter (fun sseg => segmentIDs.contains sseg.1)
    if segsToMerge.length ≠ segmentIDs.length then st
    else
      let b := segsToMerge.foldl
        (fun b sseg =>
          let deleted := (alistGet st.meta.deletions sseg.1).getD ∅
          (List.range sseg.2.numDocs).foldl
            (fun b docNum =>
              if decide (docNum ∈ deleted) then b
              else
                match segExternalID sseg.2 docNum with
                | none => b
                | some extID => builderAdd an b extID (sseg.2.storedDocs.getD docNum []))
            b)
        newBuilder
      let newSegmentID := wadd st.meta.epoch 1
      let newSeg := buildSegment b
      let newSegments := (st.segments.filter (fun sseg => !(segmentIDs.contains sseg.1)))
        ++ [(newSegmentID, newSeg)]
      let m := mergeTx b.docIDs newSegmentID segmentIDs (newSegments.map (·.1)) st.meta
      { st with meta := m, segments := newSegments, epoch := m.epoch }

/-! ## Concrete scenarios

`anDemo` agrees with the default `analysis.Simple` analyzer on every input
string used below ("stale" ↦ [("stale",0)], "fresh" ↦ [("fresh",0)],
"go go goat" ↦ [("go",0),("go",1),("goat",2)]). -/
def anDemo : String → List (String × Nat) := fun s =>
  if s = "go go goat" then [("go", 0), ("go", 1), ("goat", 2)] else [(s, 0)]

/-- A freshly created index (`index.New` on an empty directory) with the
default flush threshold. -/
def idx0 : IdxState :=
  { meta := ⟨0, [], [], []⟩, segments := [], pendingDeletions := [],
    builders := [newBuilder], cur := 0, epoch := 0, flushThreshold := 1000 }

/-- The builder after `Index("doc1", {title: "stale"})`. -/
def bStale : Builder := builderAdd anDemo newBuilder "doc1" [("title", "stale")]

/-- The segment written and opened for `bStale`. -/
def segStale : Seg := buildSegment bStale

/-- The index after `Index("doc1", {title: "stale"})`. -/
def stDoc1 : IdxState := indexOp anDemo idx0 "doc1" [("title", "stale")]

/-- ... after a subsequent `Flush`. -/
def stAfterFlush : IdxState := flushInternal stDoc1

/-- ... after re-indexing the same external id with fresh content. -/
def stReindexed : IdxState := indexOp anDemo stAfterFlush "doc1" [("title", "fresh")]

/-- The snapshot taken after the re-index. -/
def snReindexed : Snap := snapshot stReindexed

/-- Builder and segment with one document whose title is "go go goat". -/
def bGo : Builder := builderAdd anDemo newBuilder "doc1" [("title", "go go goat")]

def segGo : Seg := buildSegment bGo

/-- Specification-side quantity: the total frequency a document has for
one term's (deleted-filtered) posting list. -/
def sumFreqList (del : Finset Nat) (d : Nat) (ps : List Posting) : Nat :=
  ((ps.filter (fun p => p.docNum == d && !(decide (p.docNum ∈ del)))).map Posting.frequency).sum

/-- Specification-side quantity: the total frequency a document has over
all matching terms' posting lists. -/
def sumFreqs (del : Finset Nat) (d : Nat) (lists : List (List Posting)) : Nat :=
  (lists.map (sumFreqList del d)).sum

/-- Frequency recorded for a docnum in the `docPostings` map (0 if
absent). -/
def lookupFreq (m : List (Nat × Posting)) (d : Nat) : Nat :=
  match m.find? (fun e => e.1 == d) with
  | some e => e.2.frequency
  | none => 0

/-- The field data a segment holds for a field (the FST plus postings
region), defaulting to empty when the field is absent. -/
def segFieldData (s : Seg) (f : String) : FieldData :=
  (alistGet s.fields f).getD ⟨[], []⟩

/-- The postings `Segment.Search` yields, the empty list on error. -/
def segOkPostings (seg : Seg) (term f : String) (del : Finset Nat) : List Posting :=
  match segSearch seg term f del with
  | .error _ => []
  | .ok ps => ps

theorem wadd_wsub_cancel {a b : Nat} (hba : b ≤ a) (ha : a < U64) :
    wadd b (wsub a b) = a := by
  have hb : b < U64 := lt_of_le_of_lt hba ha
  unfold wadd wsub U64 at *
  omega

theorem putUvarintAux_spec (fuel : Nat) :
    ∀ n x s rest, n ≤ fuel →
      readUvarintAux (putUvarintAux fuel n ++ rest) x s = some (x + n * 2 ^ s, rest) := by
  induction fuel with
  | zero =>
    intro n x s rest hn
    interval_cases n
    simp [putUvarintAux, readUvarintAux]
  | succ fuel ih =>
    intro n x s rest hn
    by_cases h : n < 128
    · simp [putUvarintAux, h, readUvarintAux]
    · have hrec : n / 128 ≤ fuel := by
        have := Nat.div_lt_self (by omega : 0 < n) (by omega : 1 < 128)
        omega
      have hb : ¬ (n % 128 + 128 < 128) := by omega
      rw [putUvarintAux]
      simp only [if_neg h, List.cons_append, readUvarintAux, if_neg hb]
      rw [ih (n / 128) _ _ rest hrec]
      have h128 : (n % 128 + 128) % 128 = n % 128 := by omega
      have hpow : 2 ^ (s + 7) = 2 ^ s * 128 := by rw [pow_add]; norm_num
      have hdm : n % 128 + 128 * (n / 128) = n := Nat.mod_add_div n 128
      have hval : x + (n % 128 + 128) % 128 * 2 ^ s + n / 128 * 2 ^ (s + 7)
          = x + n * 2 ^ s := by
        rw [h128, hpow]
        calc x + n % 128 * 2 ^ s + n / 128 * (2 ^ s * 128)
            = x + (n % 128 + 128 * (n / 128)) * 2 ^ s := by ring
          _ = x + n * 2 ^ s := by rw [hdm]
      rw [hval]

/-- Varint round-trip: reading back an encoded value yields the value and
leaves the trailing bytes untouched. -/
theorem readUvarint_putUvarint (n : Nat) (rest : List Nat) :
    readUvarint (putUvarint n ++ rest) = some (n, rest) := by
  unfold readUvarint putUvarint
  rw [putUvarintAux_spec n n 0 0 rest (le_refl n)]
  simp

/-! ### Codec round-trip lemmas -/
theorem readDeltas_encodeDeltas :
    ∀ (l : List Nat) (prev : Nat) (rest : List Nat),
      List.Chain (· ≤ ·) prev l → (∀ x ∈ l, x < U64) → prev < U64 →
      readDeltas l.length prev (encodeDeltas prev l ++ rest) = some (l, rest) := by
  intro l
  induction l with
  | nil => intro prev rest _ _ _; simp [encodeDeltas, readDeltas]
  | cons d ds ih =>
    intro prev rest hchain hbound hprev
    have hd : d < U64 := hbound d (by simp)
    have hpd : prev ≤ d := by cases hchain; assumption
    simp only [encodeDeltas, List.append_assoc, List.length_cons, readDeltas,
      readUvarint_putUvarint]
    have hw : wadd prev (wsub d prev) = d := wadd_wsub_cancel hpd hd
    rw [hw, ih d rest (by cases hchain; assumption) (fun x hx => hbound x (by simp [hx])) hd]

theorem readFreqs_encodeFreqs :
    ∀ (l : List Posting) (rest : List Nat),
      readFreqs l.length (encodeFreqs l ++ rest) = some (l.map Posting.frequency, rest) := by
  intro l
  induction l with
  | nil => intro rest; simp [encodeFreqs, readFreqs]
  | cons p ps ih =>
    intro rest
    simp only [encodeFreqs, List.append_assoc, List.length_cons, readFreqs,
      readUvarint_putUvarint, List.map_cons]
    rw [ih rest]

theorem readPositionsLists_encodePositions :
    ∀ (l : List Posting) (rest : List Nat),
      (∀ p ∈ l, List.Chain' (· < ·) p.positions ∧ ∀ x ∈ p.positions, x < U64) →
      readPositionsLists l.length (encodePositions l ++ rest)
        = some (l.map Posting.positions, rest) := by
  intro l
  induction l with
  | nil => intro rest _; simp [encodePositions, readPositionsLists]
  | cons p ps ih =>
    intro rest hpos
    obtain ⟨hchain, hbound⟩ := hpos p (by simp)
    have hchain0 : List.Chain (· ≤ ·) 0 p.positions := by
      cases hp : p.positions with
      | nil => exact List.Chain.nil
      | cons a as =>
        rw [hp] at hchain
        exact List.Chain.cons (Nat.zero_le a)
          (List.Chain.imp (fun _ _ h => le_of_lt h) hchain)
    simp only [encodePositions, List.append_assoc, List.length_cons, readPositionsLists,
      readUvarint_putUvarint, List.map_cons,
      readDeltas_encodeDeltas p.positions 0 (encodePositions ps ++ rest) hchain0 hbound
        (by unfold U64; positivity),
      ih rest (fun q hq => hpos q (by simp [hq]))]

theorem zipPostings_map (l : List Posting) :
    zipPostings (l.map Posting.docNum) (l.map Posting.frequency) (l.map Posting.positions) = l := by
  induction l with
  | nil => rfl
  | cons p ps ih => simp [zipPostings, ih]

theorem chain_le_zero {l : List Nat} (h : List.Chain' (· < ·) l) :
    List.Chain (· ≤ ·) 0 l := by
  cases l with
  | nil => exact List.Chain.nil
  | cons a as =>
    exact List.Chain.cons (Nat.zero_le a) (List.Chain.imp (fun _ _ h => le_of_lt h) h)

/-- C4: for every list of postings whose docnums are strictly increasing
and whose positions within each posting are strictly increasing (all
values being `uint64`), including the empty list,
`DecodePostings (EncodePostings postings)` returns exactly the original
list. -/
theorem C4_codec_roundtrip (l : List Posting)
    (hdoc : List.Chain' (· < ·) (l.map Posting.docNum))
    (hdb : ∀ p ∈ l, p.docNum < U64)
    (hpos : ∀ p ∈ l, List.Chain' (· < ·) p.positions ∧ ∀ x ∈ p.positions, x < U64) :
    DecodePostings (EncodePostings l) = some l := by
  have hdocs : ∀ x ∈ l.map Posting.docNum, x < U64 := by
    intro x hx
    obtain ⟨p, hp, rfl⟩ := List.mem_map.mp hx
    exact hdb p hp
  have h1 := readDeltas_encodeDeltas (l.map Posting.docNum) 0
    (encodeFreqs l ++ encodePositions l) (chain_le_zero hdoc) hdocs (by unfold U64; positivity)
  rw [List.length_map] at h1
  have h2 := readFreqs_encodeFreqs l (encodePositions l)
  have h3 := readPositionsLists_encodePositions l [] hpos
  rw [List.append_nil] at h3
  unfold EncodePostings DecodePostings
  simp only [List.append_assoc, readUvarint_putUvarint, h1, h2, h3, zipPostings_map]

/-- Witness for `C4_codec_roundtrip` at a concrete two-posting list. -/
theorem C4_codec_roundtrip_witness :
    List.Chain' (· < ·) ([(⟨0, 1, [0]⟩ : Posting), ⟨2, 2, [1, 5]⟩].map Posting.docNum)
      ∧ DecodePostings (EncodePostings [(⟨0, 1, [0]⟩ : Posting), ⟨2, 2, [1, 5]⟩])
          = some [⟨0, 1, [0]⟩, ⟨2, 2, [1, 5]⟩] :=
  ⟨by simp, C4_codec_roundtrip _ (by simp) (by simp [U64]) (by simp [U64])⟩

theorem positionsFor_nil (d : Nat) : positionsFor [] d = [] := rfl

theorem mem_positionsFor {tp : List Posting} {d x : Nat} (h : x ∈ positionsFor tp d) :
    ∃ p ∈ tp, p.docNum = d ∧ x ∈ p.positions := by
  unfold positionsFor at h
  cases hf : tp.find? (fun p => p.docNum == d) with
  | none => rw [hf] at h; simp at h
  | some q =>
    rw [hf] at h
    exact ⟨q, List.mem_of_find?_eq_some hf, by simpa using List.find?_some hf, h⟩

theorem getD_map_positionsFor (tps : List (List Posting)) (d i : Nat) :
    (tps.map (fun tp => positionsFor tp d)).getD i [] = positionsFor (tps.getD i []) d := by
  induction tps generalizing i with
  | nil => simp [positionsFor]
  | cons t ts ih =>
    cases i with
    | zero => simp
    | succ n => simpa using ih n

theorem wadd_eq_add {a b : Nat} (h : a + b < U64) : wadd a b = a + b := by
  unfold wadd U64 at *
  omega

/-- C5: a phrase of tokens `t0..tn-1` matches document `d` in a field iff
there is a start position `p` among `d`'s positions for `t0` such that for
every `i ∈ 1..n-1`, `p+i` is among `d`'s positions for `ti`; token order
is significant and partial overlaps do not match (they simply fail the
formula).  `hinv` is the posting-list invariant (strictly increasing
docnums); `hbound` says positions are far from the `uint64` limit, which
the 0-based analyzer positions always satisfy. -/
theorem C5_phrase_correctness (tps : List (List Posting)) (d : Nat)
    (hne : tps ≠ [])
    (hinv : ∀ tp ∈ tps, List.Chain' (· < ·) (tp.map Posting.docNum))
    (hbound : ∀ tp ∈ tps, ∀ p ∈ tp, ∀ x ∈ p.positions, x + tps.length < U64) :
    phraseDocMatch tps d = true ↔ phraseSpecMatch tps d := by
  clear hinv
  obtain ⟨t0, rest, rfl⟩ := List.exists_cons_of_ne_nil hne
  have hbp : ∀ x ∈ positionsFor t0 d, x + (rest.length + 1) < U64 := by
    intro x hx
    obtain ⟨q, hq, _, hxq⟩ := mem_positionsFor hx
    simpa using hbound t0 (by simp) q hq x hxq
  constructor
  · intro h
    unfold phraseDocMatch at h
    simp only [Bool.and_eq_true] at h
    obtain ⟨⟨⟨hall, hseed⟩, hvalid⟩, hmatch⟩ := h
    rw [List.map_cons] at hmatch
    unfold phraseMatch at hmatch
    simp only [List.any_eq_true] at hmatch
    obtain ⟨start, hstart, hallj⟩ := hmatch
    simp only [List.all_eq_true, List.mem_range, List.length_map] at hallj
    refine ⟨start, by simpa using hstart, ?_⟩
    intro i h1 hi
    obtain ⟨j, rfl⟩ : ∃ j, i = j + 1 := ⟨i - 1, by omega⟩
    have hj : j < rest.length := by simpa using Nat.lt_of_succ_lt_succ hi
    have hcontains := hallj j hj
    rw [show (positionsFor t0 d :: List.map (fun tp => positionsFor tp d) rest)
          = ((t0 :: rest).map (fun tp => positionsFor tp d)) by simp,
        getD_map_positionsFor] at hcontains
    have hwadd : wadd start (j + 1) = start + (j + 1) := by
      apply wadd_eq_add
      have := hbp start (by simpa using hstart)
      omega
    rw [hwadd] at hcontains
    simpa using hcontains
  · intro h
    obtain ⟨p, hp, hforall⟩ := h
    simp only [List.headD_cons] at hp
    obtain ⟨q0, hq0, hq0d, hpq0⟩ := mem_positionsFor hp
    unfold phraseDocMatch
    simp only [Bool.and_eq_true]
    have hposIdx : ∀ j, j < rest.length →
        (p + (j + 1)) ∈ positionsFor (rest.getD j []) d := by
      intro j hj
      have := hforall (j + 1) (by omega) (by simp; omega)
      simpa [List.getD_cons_succ] using this
    refine ⟨⟨⟨?_, ?_⟩, ?_⟩, ?_⟩
    · -- every term's posting list is non-empty
      simp only [List.all_eq_true, Bool.not_eq_true', List.isEmpty_eq_false]
      intro tp htp
      rcases List.mem_cons.mp htp with rfl | htp'
      · exact List.ne_nil_of_mem hq0
      · obtain ⟨j, hj, rfl⟩ := List.mem_iff_getElem.mp htp'
        have := hposIdx j hj
        rw [List.getD_eq_getElem _ _ hj] at this
        obtain ⟨q, hq, _, _⟩ := mem_positionsFor this
        exact List.ne_nil_of_mem hq
    · -- d appears in the first term's postings
      simp only [List.headD_cons, List.any_eq_true]
      exact ⟨q0, hq0, by simp [hq0d]⟩
    · -- every per-term position list for d is non-empty
      simp only [List.all_eq_true, List.mem_map, Bool.not_eq_true', List.isEmpty_eq_false]
      rintro l ⟨tp, htp, rfl⟩
      rcases List.mem_cons.mp htp with rfl | htp'
      · exact List.ne_nil_of_mem hp
      · obtain ⟨j, hj, rfl⟩ := List.mem_iff_getElem.mp htp'
        have := hposIdx j hj
        rw [List.getD_eq_getElem _ _ hj] at this
        exact List.ne_nil_of_mem this
    · -- the adjacency scan succeeds with start := p
      rw [List.map_cons]
      unfold phraseMatch
      simp only [List.any_eq_true]
      refine ⟨p, hp, ?_⟩
      simp only [List.all_eq_true, List.mem_range, List.length_map]
      intro j hj
      rw [show (positionsFor t0 d :: List.map (fun tp => positionsFor tp d) rest)
            = ((t0 :: rest).map (fun tp => positionsFor tp d)) by simp,
          getD_map_positionsFor]
      have hwadd : wadd p (j + 1) = p % U64 + (j + 1) := by
        have := hbp p hp
        unfold wadd U64 at *
        omega
      have hpU : p % U64 = p := by
        have := hbp p hp
        unfold U64 at *
        omega
      rw [hwadd, hpU]
      have := hforall (j + 1) (by omega) (by simp; omega)
      simp only [List.getD_cons_succ] at this
      simpa [List.getD_cons_succ] using this

/-- Witness for `C5_phrase_correctness`: a two-token phrase matching at
positions 2,3 of document 0. -/
theorem C5_phrase_correctness_witness :
    ([[(⟨0, 1, [2]⟩ : Posting)], [⟨0, 1, [3]⟩]] : List (List Posting)) ≠ []
      ∧ (phraseDocMatch [[(⟨0, 1, [2]⟩ : Posting)], [⟨0, 1, [3]⟩]] 0 = true
          ↔ phraseSpecMatch [[(⟨0, 1, [2]⟩ : Posting)], [⟨0, 1, [3]⟩]] 0) :=
  ⟨by simp, C5_phrase_correctness _ 0 (by simp) (by simp) (by simp [U64])⟩

/-- C2: at segment build time a term with exactly one posting of
frequency 1 and a single position should be stored as `ONE_HIT | docnum`
with nothing in the postings region — but `writeFieldIndex` stores the
relative offset (here 0) and writes the encoded posting list for every
term; the offset is not one-hit encoded and differs from
`EncodeOneHit 5 = 2^63 + 5`. -/
theorem C2_one_hit_never_written :
    writeFieldIndex [("hello", [⟨5, 1, [3]⟩])]
        = ⟨[("hello", 0)], EncodePostings [⟨5, 1, [3]⟩]⟩
    ∧ (writeFieldIndex [("hello", [⟨5, 1, [3]⟩])]).region ≠ []
    ∧ IsOneHit 0 = false
    ∧ EncodeOneHit 5 = 2 ^ 63 + 5 := by
  refine ⟨by decide, by decide, by decide, by decide⟩

/-- C1: after `Index("doc1", stale); Flush(); Index("doc1", fresh)`, the
persisted copy of `doc1` is *not* tombstoned — `DocNumbers` finds no
one-hit `_id` value (the builder never writes one), `markObsoletes` adds
nothing to `pendingDeletions`, and a search for the stale term still
returns the old segment copy (segmentIdx 0, field "title" of the
segment), although the claim requires the stale copy to be masked by the
re-index. -/
theorem C1_stale_copy_survives_reindex :
    stAfterFlush.segments = [(1, segStale)]
    ∧ docNumbers segStale ["doc1"] = ∅
    ∧ stReindexed.pendingDeletions = []
    ∧ searcherSearch (snapSegments snReindexed) (some (snapBuilder snReindexed stReindexed))
        "stale" "" = .ok [⟨"doc1", 1, 1, "title", 0⟩] := by
  refine ⟨by decide, Finset.card_eq_zero.mp (by decide), by decide, by decide⟩

/-- C7 fails on the code: an empty-field term query searches the `_id`
field too, so a term equal to an external id matches that document solely
through its `_id` posting (the single result's field is `_id`). -/
theorem C7_counterexample :
    searcherSearch [(segStale, ∅)] none "doc1" "" = .ok [⟨"doc1", 1, 0, "_id", 0⟩] := by
  decide

theorem not_id_mem_addFieldName {acc : List String} {f : String}
    (h : "_id" ∉ acc) : "_id" ∉ addFieldName acc f := by
  unfold addFieldName
  split
  · next hg =>
    simp only [Bool.and_eq_true, bne_iff_ne, ne_eq, Bool.not_eq_true'] at hg
    simp only [List.mem_append, List.mem_singleton]
    rintro (hmem | rfl)
    · exact h hmem
    · exact hg.1 rfl
  · exact h

theorem not_id_foldl_addFieldName (l : List String) (acc : List String)
    (h : "_id" ∉ acc) : "_id" ∉ l.foldl addFieldName acc := by
  induction l generalizing acc with
  | nil => exact h
  | cons f fs ih => exact ih _ (not_id_mem_addFieldName h)

theorem not_id_foldl_segs (segs : List (Seg × Finset Nat)) (acc : List String)
    (h : "_id" ∉ acc) :
    "_id" ∉ segs.foldl (fun acc sd => (segFields sd.1).foldl addFieldName acc) acc := by
  induction segs generalizing acc with
  | nil => exact h
  | cons sd rest ih => exact ih _ (not_id_foldl_addFieldName _ _ h)

/-- C7 amended: `getFieldsToSearch` — used by the phrase, prefix,
regex/fuzzy and docSet paths — never yields `_id` for a multi-field
search, but the direct term-search path (`Searcher.Search` →
`searchSegment`/`searchBuilder`) iterates every field including `_id`,
so a term equal to an external id does match through `_id` there. -/
theorem C7_id_field_search :
    (∀ (segs : List (Seg × Finset Nat)) (builder : Option Builder),
        "_id" ∉ getFieldsToSearch segs builder "")
    ∧ (∃ m, searcherSearch [(segStale, ∅)] none "doc1" "" = .ok [m] ∧ m.field = "_id") := by
  constructor
  · intro segs builder
    unfold getFieldsToSearch
    simp only [bne_self_eq_false, Bool.false_eq_true, if_false]
    match builder with
    | none => exact not_id_foldl_segs segs [] (by simp)
    | some b => exact not_id_foldl_addFieldName _ _ (not_id_foldl_segs segs [] (by simp))
  · exact ⟨⟨"doc1", 1, 0, "_id", 0⟩, by decide, rfl⟩

/-- C9 fails on the code: the segment layer does produce a
field-not-found error for an explicitly named non-existent field, but
`searchSegmentField` swallows it, so the term search returns an empty
(error-free) result instead of surfacing the error. -/
theorem C9_counterexample :
    segSearch segStale "stale" "zzz" ∅ = .error "field not found: zzz"
    ∧ searcherSearch [(segStale, ∅)] none "stale" "zzz" = .ok [] := by
  refine ⟨by decide, by decide⟩

/-- C9 amended: `Segment.Search`/`getFST` return a field-not-found error,
but the searcher's term path never propagates any error — its Go
signature returns a nil error on every path — so explicit-field queries
on a missing field yield empty results, and multi-field queries skip the
field silently. -/
theorem C9_field_errors_swallowed :
    (∀ (segs : List (Seg × Finset Nat)) (builder : Option Builder) (term field : String),
        ∃ ms, searcherSearch segs builder term field = .ok ms)
    ∧ segSearch segStale "stale" "zzz" ∅ = .error "field not found: zzz"
    ∧ searcherSearch [(segStale, ∅)] none "stale" "zzz" = .ok [] := by
  refine ⟨fun segs builder term field => ⟨_, rfl⟩, by decide, by decide⟩

theorem foldl_epoch_invariant {α : Type} (f : MetaState → α → MetaState)
    (hf : ∀ mm a, (f mm a).epoch = mm.epoch) :
    ∀ (l : List α) (mm : MetaState), (l.foldl f mm).epoch = mm.epoch := by
  intro l
  induction l with
  | nil => intro mm; rfl
  | cons a as ih => intro mm; rw [List.foldl_cons, ih, hf]

theorem flushTx_epoch (pending : List (Nat × Finset Nat)) (builderDeleted : Finset Nat)
    (currentSegmentIDs : List Nat) (segmentID : Nat) (m : MetaState) :
    (flushTx pending builderDeleted currentSegmentIDs segmentID m).epoch = wadd m.epoch 1 := by
  have h2 : ∀ (mm : MetaState) (sp : Nat × Finset Nat),
      ((if sp.2.card = 0 then mm
        else { mm with deletions :=
                 alistSet mm.deletions sp.1 (((alistGet mm.deletions sp.1).getD ∅) ∪ sp.2) })
        : MetaState).epoch = mm.epoch := by
    intro mm sp
    split <;> rfl
  unfold flushTx
  dsimp only
  split
  · exact foldl_epoch_invariant _ h2 pending _
  · exact foldl_epoch_invariant _ h2 pending _

theorem mergeTx_epoch (builderDocIDs : List String) (newSegmentID : Nat)
    (mergedIDs : List Nat) (newList : List Nat) (m : MetaState) :
    (mergeTx builderDocIDs newSegmentID mergedIDs newList m).epoch = wadd m.epoch 1 := by
  unfold mergeTx
  dsimp only
  exact (foldl_epoch_invariant
      (fun mm sid => { mm with deletions := alistDelete mm.deletions sid })
      (fun _ _ => rfl) mergedIDs _).trans
    ((foldl_epoch_invariant
      (fun mm i => { mm with docids := alistSet mm.docids (builderDocIDs.getD i "") (newSegmentID, i) })
      (fun _ _ => rfl) (List.range builderDocIDs.length) _).trans rfl)

/-- C6: both mutating metadata transactions (flush and merge) advance the
persisted epoch by exactly one `IncrementEpoch` (`epoch' = epoch + 1` as a
`uint64`), so the epoch strictly increases across successful mutating
transactions (strictness holds whenever the `uint64` counter does not
wrap, i.e. `epoch + 1 < 2^64`). -/
theorem C6_epoch_strictly_increases (pending : List (Nat × Finset Nat))
    (builderDeleted : Finset Nat) (currentSegmentIDs : List Nat) (segmentID : Nat)
    (builderDocIDs : List String) (newSegmentID : Nat) (mergedIDs : List Nat)
    (newList : List Nat) (m : MetaState) (h : m.epoch + 1 < U64) :
    (flushTx pending builderDeleted currentSegmentIDs segmentID m).epoch = wadd m.epoch 1
    ∧ (mergeTx builderDocIDs newSegmentID mergedIDs newList m).epoch = wadd m.epoch 1
    ∧ m.epoch < (flushTx pending builderDeleted currentSegmentIDs segmentID m).epoch
    ∧ m.epoch < (mergeTx builderDocIDs newSegmentID mergedIDs newList m).epoch := by
  have hw : wadd m.epoch 1 = m.epoch + 1 := by
    unfold wadd U64 at *
    omega
  refine ⟨flushTx_epoch .., mergeTx_epoch .., ?_, ?_⟩
  · rw [flushTx_epoch, hw]; omega
  · rw [mergeTx_epoch, hw]; omega

/-- Witness for `C6_epoch_strictly_increases` at a concrete store state. -/
theorem C6_epoch_strictly_increases_witness :
    (5 : Nat) + 1 < U64
    ∧ ((flushTx [] ∅ [] 6 ⟨5, [], [], []⟩).epoch = wadd 5 1
       ∧ (mergeTx [] 6 [] [] ⟨5, [], [], []⟩).epoch = wadd 5 1
       ∧ (5 : Nat) < (flushTx [] ∅ [] 6 ⟨5, [], [], []⟩).epoch
       ∧ (5 : Nat) < (mergeTx [] 6 [] [] ⟨5, [], [], []⟩).epoch) :=
  ⟨by norm_num [U64],
   C6_epoch_strictly_increases [] ∅ [] 6 [] 6 [] [] ⟨5, [], [], []⟩ (by norm_num [U64])⟩

theorem foldl_proj_invariant {α β γ : Type} (f : β → α → β) (proj : β → γ)
    (hf : ∀ b a, proj (f b a) = proj b) :
    ∀ (l : List α) (b : β), proj (l.foldl f b) = proj b := by
  intro l
  induction l with
  | nil => intro b; rfl
  | cons a as ih => intro b; rw [List.foldl_cons, ih, hf]

theorem builderAdd_numDocs (an : String → List (String × Nat)) (b : Builder)
    (id : String) (doc : List (String × String)) :
    (builderAdd an b id doc).numDocs = b.numDocs + 1 := by
  unfold builderAdd
  dsimp only
  exact foldl_proj_invariant (fun acc fv => builderAddField acc b.numDocs fv.1 (an fv.2))
    Builder.numDocs (fun b a => rfl) doc _

theorem builderAdd_deleted (an : String → List (String × Nat)) (b : Builder)
    (id : String) (doc : List (String × String)) :
    (builderAdd an b id doc).deleted = b.deleted := by
  unfold builderAdd
  dsimp only
  exact foldl_proj_invariant (fun acc fv => builderAddField acc b.numDocs fv.1 (an fv.2))
    Builder.deleted (fun b a => rfl) doc _

theorem builderDelete_numDocs (b : Builder) (id : String) :
    (builderDelete b id).numDocs = b.numDocs := by
  unfold builderDelete
  split <;> rfl

theorem builderDelete_deleted_subset {b : Builder} (id : String)
    (h : b.deleted ⊆ Finset.range b.numDocs) (hlen : b.docIDs.length = b.numDocs) :
    (builderDelete b id).deleted ⊆ Finset.range b.numDocs := by
  unfold builderDelete
  split
  · next i hfind =>
    have hi : i ∈ List.range b.docIDs.length := List.mem_of_find?_eq_some hfind
    have hilt : i < b.numDocs := by
      rw [← hlen]
      exact List.mem_range.mp hi
    intro x hx
    rcases Finset.mem_insert.mp hx with rfl | hx'
    · exact Finset.mem_range.mpr hilt
    · exact h hx'
  · exact h

theorem getD_set_self {l : List Builder} {i : Nat} {x d : Builder}
    (h : i < l.length) : (l.set i x).getD i d = x := by
  rw [List.getD_eq_getElem _ _ (by simpa using h)]
  exact List.getElem_set_self _

/-- C10: flush is a no-op exactly when the builder holds no non-deleted
documents.  `builderNumDocs` is `numDocs - |deleted|` (total added minus
deleted), and it is zero iff every added document has been deleted; in
that case `flushInternal` changes nothing (no segment, no transaction, no
epoch advance); otherwise it appends exactly one segment and advances the
epoch.  The automatic flush trigger in `Index` compares the same quantity
against the threshold: the segment list grows iff the post-add
`builderNumDocs` reaches the threshold. -/
theorem C10_flush_noop_iff_all_deleted (st : IdxState)
    (h : (curBuilder st).deleted ⊆ Finset.range (curBuilder st).numDocs)
    (hlen : (curBuilder st).docIDs.length = (curBuilder st).numDocs)
    (hcur : st.cur < st.builders.length) :
    (builderNumDocs (curBuilder st) = 0
        ↔ ∀ d < (curBuilder st).numDocs, d ∈ (curBuilder st).deleted)
    ∧ (builderNumDocs (curBuilder st) = 0 → flushInternal st = st)
    ∧ (builderNumDocs (curBuilder st) ≠ 0 →
        (flushInternal st).meta.epoch = wadd st.meta.epoch 1
        ∧ (flushInternal st).segments
            = st.segments ++ [(wadd st.meta.epoch 1, buildSegment (curBuilder st))]
        ∧ (flushInternal st).meta.segmentsList = st.meta.segmentsList ++ [wadd st.meta.epoch 1])
    ∧ (∀ (an : String → List (String × Nat)) (docID : String) (doc : List (String × String)),
        (indexOp an st docID doc).segments = st.segments
          ↔ builderNumDocs (builderAdd an (builderDelete (curBuilder st) docID) docID doc)
              < st.flushThreshold) := by
  refine ⟨?_, ?_, ?_, ?_⟩
  · constructor
    · intro h0 d hd
      have hcard : (curBuilder st).deleted.card ≤ (curBuilder st).numDocs := by
        simpa using Finset.card_le_card h
      have hcardeq : (curBuilder st).deleted.card = (curBuilder st).numDocs := by
        unfold builderNumDocs at h0
        omega
      have heq : (curBuilder st).deleted = Finset.range (curBuilder st).numDocs := by
        apply Finset.eq_of_subset_of_card_le h
        rw [Finset.card_range, hcardeq]
      rw [heq]
      exact Finset.mem_range.mpr hd
    · intro hall
      have hsub : Finset.range (curBuilder st).numDocs ⊆ (curBuilder st).deleted :=
        fun d hd => hall d (Finset.mem_range.mp hd)
      have := Finset.card_le_card hsub
      rw [Finset.card_range] at this
      unfold builderNumDocs
      omega
  · intro h0
    unfold flushInternal
    rw [if_pos h0]
  · intro h0
    unfold flushInternal
    rw [if_neg h0]
    exact ⟨flushTx_epoch .., rfl, rfl⟩
  · intro an docID doc
    have hnd : builderNumDocs (builderAdd an (builderDelete (curBuilder st) docID) docID doc)
        ≠ 0 := by
      have h1 := builderAdd_numDocs an (builderDelete (curBuilder st) docID) docID doc
      have h2 := builderAdd_deleted an (builderDelete (curBuilder st) docID) docID doc
      have h3 := builderDelete_numDocs (curBuilder st) docID
      have h4 : (builderDelete (curBuilder st) docID).deleted.card
          ≤ (curBuilder st).numDocs := by
        have := Finset.card_le_card (builderDelete_deleted_subset docID h hlen)
        simpa using this
      unfold builderNumDocs
      rw [h1, h2, h3]
      omega
    obtain ⟨meta, segs, pend, builders, cur, epoch, thr⟩ := st
    unfold curBuilder at *
    dsimp only at *
    have hset : cur < (builders.set cur (builderDelete (builders.getD cur newBuilder) docID)).length := by
      simpa using hcur
    unfold indexOp markObsoletes curBuilder
    dsimp only
    rw [getD_set_self hcur, getD_set_self hset]
    by_cases hth : thr ≤ builderNumDocs
        (builderAdd an (builderDelete (builders.getD cur newBuilder) docID) docID doc)
    · rw [if_pos hth]
      unfold flushInternal curBuilder
      dsimp only
      rw [getD_set_self hset]
      rw [if_neg hnd]
      dsimp only
      constructor
      · intro hEq
        have := congrArg List.length hEq
        simp at this
      · intro hlt
        omega
    · rw [if_neg hth]
      dsimp only
      exact iff_of_true rfl (by omega)

/-- Witness for `C10_flush_noop_iff_all_deleted` at the one-document
index state. -/
theorem C10_flush_noop_iff_all_deleted_witness :
    (curBuilder stDoc1).deleted ⊆ Finset.range (curBuilder stDoc1).numDocs
    ∧ (curBuilder stDoc1).docIDs.length = (curBuilder stDoc1).numDocs
    ∧ stDoc1.cur < stDoc1.builders.length
    ∧ (builderNumDocs (curBuilder stDoc1) = 0
        ↔ ∀ d < (curBuilder stDoc1).numDocs, d ∈ (curBuilder stDoc1).deleted) :=
  ⟨by decide, by decide, by decide,
   (C10_flush_noop_iff_all_deleted stDoc1 (by decide) (by decide) (by decide)).1⟩

/-- C3 fails on the code for the builder: the snapshot captures the
builder *pointer*, so an `Index` executed after the snapshot mutates the
builder observable through it (one document before, two after). -/
theorem C3_counterexample :
    (snapBuilder (snapshot stDoc1) stDoc1).numDocs = 1
    ∧ (snapBuilder (snapshot stDoc1) (indexOp anDemo stDoc1 "doc2" [("title", "b")])).numDocs
        = 2 := by
  refine ⟨by decide, by decide⟩

/-- C3 amended: the snapshot's segment list and deletion bitmaps are
values captured at creation (`getDeletions` clones persisted state), so
later operations cannot change them; the builder, however, is shared by
reference: a flush replaces the index's builder pointer and leaves the
snapshot's builder object untouched, while an `Index` executed before the
next flush mutates the very builder the snapshot observes (its document
count grows by one). -/
theorem C3_snapshot_builder_shared (st : IdxState)
    (hcur : st.cur < st.builders.length) :
    snapBuilder (snapshot st) (flushInternal st) = curBuilder st
    ∧ (∀ (an : String → List (String × Nat)) (docID : String) (doc : List (String × String)),
        builderNumDocs (builderAdd an (builderDelete (curBuilder st) docID) docID doc)
            < st.flushThreshold →
        snapBuilder (snapshot st) (indexOp an st docID doc)
          = builderAdd an (builderDelete (curBuilder st) docID) docID doc) := by
  constructor
  · unfold flushInternal
    dsimp only
    by_cases h0 : builderNumDocs (curBuilder st) = 0
    · rw [if_pos h0]
      rfl
    · rw [if_neg h0]
      unfold snapBuilder snapshot curBuilder
      dsimp only
      rw [List.getD_append _ _ _ _ hcur]
  · intro an docID doc hth
    obtain ⟨meta, segs, pend, builders, cur, epoch, thr⟩ := st
    unfold curBuilder at *
    dsimp only at *
    have hset : cur < (builders.set cur (builderDelete (builders.getD cur newBuilder) docID)).length := by
      simpa using hcur
    unfold indexOp markObsoletes curBuilder
    dsimp only
    rw [getD_set_self hcur, getD_set_self hset]
    rw [if_neg (by omega)]
    unfold snapBuilder snapshot
    dsimp only
    rw [getD_set_self hset]

/-- Witness for `C3_snapshot_builder_shared` at the one-document index
state. -/
theorem C3_snapshot_builder_shared_witness :
    stDoc1.cur < stDoc1.builders.length
    ∧ snapBuilder (snapshot stDoc1) (flushInternal stDoc1) = curBuilder stDoc1 :=
  ⟨by decide, (C3_snapshot_builder_shared stDoc1 (by decide)).1⟩

theorem lookupFreq_nil (d : Nat) : lookupFreq [] d = 0 := rfl

theorem lookupFreq_cons_pos {k : Nat} {q : Posting} {es : List (Nat × Posting)} {d : Nat}
    (h : (k == d) = true) : lookupFreq ((k, q) :: es) d = q.frequency := by
  simp only [lookupFreq, List.find?_cons, h]

theorem lookupFreq_cons_neg {k : Nat} {q : Posting} {es : List (Nat × Posting)} {d : Nat}
    (h : (k == d) = false) : lookupFreq ((k, q) :: es) d = lookupFreq es d := by
  simp only [lookupFreq, List.find?_cons, h]

theorem lookupFreq_upsert :
    ∀ (m : List (Nat × Posting)) (p : Posting) (d : Nat),
      lookupFreq (upsertPosting m p) d
        = if p.docNum = d then lookupFreq m d + p.frequency else lookupFreq m d := by
  intro m p
  induction m with
  | nil =>
    intro d
    by_cases hd : p.docNum = d
    · rw [if_pos hd]
      unfold upsertPosting
      rw [lookupFreq_cons_pos (by simpa using hd), lookupFreq_nil]
      omega
    · rw [if_neg hd]
      unfold upsertPosting
      rw [lookupFreq_cons_neg (by simpa using hd)]
  | cons a as ih =>
    intro d
    obtain ⟨k, q⟩ := a
    unfold upsertPosting
    dsimp only
    by_cases hep : (k == p.docNum) = true
    · rw [if_pos hep]
      have hep' : k = p.docNum := by simpa using hep
      by_cases hd : (k == d) = true
      · have hd' : k = d := by simpa using hd
        rw [lookupFreq_cons_pos hd, lookupFreq_cons_pos hd, if_pos (hep' ▸ hd')]
      · have hd' : (k == d) = false := by simpa using hd
        rw [lookupFreq_cons_neg hd', lookupFreq_cons_neg hd']
        have hnd : ¬ p.docNum = d := fun hc => by simp [hep', hc] at hd'
        rw [if_neg hnd]
    · rw [if_neg hep]
      by_cases hd : (k == d) = true
      · rw [lookupFreq_cons_pos hd, lookupFreq_cons_pos hd]
        have hd' : k = d := by simpa using hd
        have hnd : ¬ p.docNum = d := fun hc => hep (by simp [hd', hc])
        rw [if_neg hnd]
      · have hd' : (k == d) = false := by simpa using hd
        rw [lookupFreq_cons_neg hd', lookupFreq_cons_neg hd']
        exact ih d

theorem lookupFreq_merge (del : Finset Nat) :
    ∀ (ps : List Posting) (m : List (Nat × Posting)) (d : Nat),
      lookupFreq (mergePostingList del m ps) d = lookupFreq m d + sumFreqList del d ps := by
  intro ps
  induction ps with
  | nil =>
    intro m d
    simp [mergePostingList, sumFreqList]
  | cons p ps ih =>
    intro m d
    unfold mergePostingList at ih ⊢
    rw [List.foldl_cons]
    rw [ih]
    by_cases hdel : p.docNum ∈ del
    · rw [if_pos (by simp [hdel])]
      have hfil : (p.docNum == d && !decide (p.docNum ∈ del)) = false := by
        simp [hdel]
      have hsum : sumFreqList del d (p :: ps) = sumFreqList del d ps := by
        simp [sumFreqList, List.filter_cons, hfil]
      rw [hsum]
    · rw [if_neg (by simp [hdel])]
      rw [lookupFreq_upsert]
      by_cases hd : p.docNum = d
      · have hdel2 : d ∉ del := hd ▸ hdel
        have hfil : (p.docNum == d && !decide (p.docNum ∈ del)) = true := by
          simp [hd, hdel2]
        have hsum : sumFreqList del d (p :: ps) = p.frequency + sumFreqList del d ps := by
          simp [sumFreqList, List.filter_cons, hfil]
        rw [if_pos hd, hsum]
        omega
      · have hfil : (p.docNum == d && !decide (p.docNum ∈ del)) = false := by
          simp [hd]
        have hsum : sumFreqList del d (p :: ps) = sumFreqList del d ps := by
          simp [sumFreqList, List.filter_cons, hfil]
        rw [if_neg hd, hsum]

theorem lookupFreq_foldl (del : Finset Nat) :
    ∀ (lists : List (List Posting)) (m : List (Nat × Posting)) (d : Nat),
      lookupFreq (lists.foldl (mergePostingList del) m) d
        = lookupFreq m d + sumFreqs del d lists := by
  intro lists
  induction lists with
  | nil =>
    intro m d
    simp [sumFreqs]
  | cons ps lists ih =>
    intro m d
    rw [List.foldl_cons, ih, lookupFreq_merge]
    simp only [sumFreqs, List.map_cons, List.sum_cons]
    omega

theorem upsert_key_eq :
    ∀ (m : List (Nat × Posting)) (p : Posting),
      (∀ e ∈ m, (e : Nat × Posting).2.docNum = e.1) →
      ∀ e ∈ upsertPosting m p, (e : Nat × Posting).2.docNum = e.1 := by
  intro m p
  induction m with
  | nil =>
    intro _ e he
    simp only [upsertPosting, List.mem_singleton] at he
    subst he
    rfl
  | cons a as ih =>
    intro hm e he
    obtain ⟨k, q⟩ := a
    unfold upsertPosting at he
    dsimp only at he
    by_cases hap : (k == p.docNum) = true
    · rw [if_pos hap] at he
      rcases List.mem_cons.mp he with rfl | he'
      · have := hm (k, q) (by simp)
        simpa using this
      · exact hm e (by simp [he'])
    · rw [if_neg hap] at he
      rcases List.mem_cons.mp he with rfl | he'
      · exact hm (k, q) (by simp)
      · exact ih (fun x hx => hm x (by simp [hx])) e he'

theorem merge_key_eq (del : Finset Nat) :
    ∀ (ps : List Posting) (m : List (Nat × Posting)),
      (∀ e ∈ m, (e : Nat × Posting).2.docNum = e.1) →
      ∀ e ∈ mergePostingList del m ps, (e : Nat × Posting).2.docNum = e.1 := by
  intro ps
  induction ps with
  | nil =>
    intro m hm
    simpa [mergePostingList] using hm
  | cons p ps ih =>
    intro m hm
    unfold mergePostingList at ih ⊢
    rw [List.foldl_cons]
    apply ih
    by_cases hdel : p.docNum ∈ del
    · rw [if_pos (by simp [hdel])]
      exact hm
    · rw [if_neg (by simp [hdel])]
      exact upsert_key_eq m p hm

theorem foldl_key_eq (del : Finset Nat) :
    ∀ (lists : List (List Posting)) (m : List (Nat × Posting)),
      (∀ e ∈ m, (e : Nat × Posting).2.docNum = e.1) →
      ∀ e ∈ lists.foldl (mergePostingList del) m, (e : Nat × Posting).2.docNum = e.1 := by
  intro lists
  induction lists with
  | nil =>
    intro m hm
    simpa using hm
  | cons ps lists ih =>
    intro m hm
    rw [List.foldl_cons]
    exact ih _ (merge_key_eq del ps m hm)

theorem keys_upsert :
    ∀ (m : List (Nat × Posting)) (p : Posting),
      (upsertPosting m p).map Prod.fst
        = if p.docNum ∈ m.map Prod.fst then m.map Prod.fst
          else m.map Prod.fst ++ [p.docNum] := by
  intro m p
  induction m with
  | nil => simp [upsertPosting]
  | cons a as ih =>
    obtain ⟨k, q⟩ := a
    unfold upsertPosting
    dsimp only
    by_cases hk : (k == p.docNum) = true
    · have hk' : k = p.docNum := by simpa using hk
      rw [if_pos hk]
      simp [hk']
    · rw [if_neg hk]
      have hk' : ¬ k = p.docNum := by simpa using hk
      simp only [List.map_cons]
      rw [ih]
      by_cases hmem : p.docNum ∈ as.map Prod.fst
      · rw [if_pos hmem, if_pos (by simp [hmem])]
      · rw [if_neg hmem,
            if_neg (by
              intro hcon
              rcases List.mem_cons.mp hcon with h | h
              · exact hk' h.symm
              · exact hmem h)]
        simp

theorem nodup_keys_upsert (m : List (Nat × Posting)) (p : Posting)
    (hm : (m.map Prod.fst).Nodup) : ((upsertPosting m p).map Prod.fst).Nodup := by
  rw [keys_upsert]
  by_cases hmem : p.docNum ∈ m.map Prod.fst
  · rw [if_pos hmem]
    exact hm
  · rw [if_neg hmem]
    simp [List.nodup_append, hm, hmem]

theorem nodup_keys_merge (del : Finset Nat) :
    ∀ (ps : List Posting) (m : List (Nat × Posting)),
      (m.map Prod.fst).Nodup → ((mergePostingList del m ps).map Prod.fst).Nodup := by
  intro ps
  induction ps with
  | nil =>
    intro m hm
    simpa [mergePostingList] using hm
  | cons p ps ih =>
    intro m hm
    unfold mergePostingList at ih ⊢
    rw [List.foldl_cons]
    apply ih
    by_cases hdel : p.docNum ∈ del
    · rw [if_pos (by simp [hdel])]
      exact hm
    · rw [if_neg (by simp [hdel])]
      exact nodup_keys_upsert m p hm

theorem nodup_keys_foldl (del : Finset Nat) :
    ∀ (lists : List (List Posting)) (m : List (Nat × Posting)),
      (m.map Prod.fst).Nodup →
      ((lists.foldl (mergePostingList del) m).map Prod.fst).Nodup := by
  intro lists
  induction lists with
  | nil =>
    intro m hm
    simpa using hm
  | cons ps lists ih =>
    intro m hm
    rw [List.foldl_cons]
    exact ih _ (nodup_keys_merge del ps m hm)

theorem lookupFreq_of_mem :
    ∀ (m : List (Nat × Posting)), (m.map Prod.fst).Nodup →
      ∀ (k : Nat) (q : Posting), (k, q) ∈ m → lookupFreq m k = q.frequency := by
  intro m
  induction m with
  | nil =>
    intro _ k q h
    simp at h
  | cons a as ih =>
    intro hn k q hm
    obtain ⟨ak, aq⟩ := a
    rcases List.mem_cons.mp hm with heq | hmem
    · cases heq
      exact lookupFreq_cons_pos (by simp)
    · have hk : k ∈ as.map Prod.fst := List.mem_map.mpr ⟨(k, q), hmem, rfl⟩
      simp only [List.map_cons, List.nodup_cons] at hn
      have hne : (ak == k) = false := by
        simp only [beq_eq_false_iff_ne, ne_eq]
        rintro rfl
        exact hn.1 hk
      rw [lookupFreq_cons_neg hne]
      exact ih hn.2 k q hmem

/-- Every posting in the merged `docPostings` map carries the total
frequency its docnum has across all the merged lists (deleted docnums
filtered out). -/
theorem merged_freq_eq_sum (del : Finset Nat) (lists : List (List Posting)) (q : Posting)
    (hq : q ∈ (lists.foldl (mergePostingList del) []).map (·.2)) :
    q.frequency = sumFreqs del q.docNum lists := by
  obtain ⟨e, he, hq2⟩ := List.mem_map.mp hq
  obtain ⟨k, qq⟩ := e
  subst hq2
  have hkey : qq.docNum = k := by
    have := foldl_key_eq del lists [] (by simp) (k, qq) he
    simpa using this
  have hnodup := nodup_keys_foldl del lists [] (by simp)
  have hlk := lookupFreq_of_mem _ hnodup k qq he
  rw [lookupFreq_foldl del lists [] k, lookupFreq_nil] at hlk
  show qq.frequency = sumFreqs del qq.docNum lists
  rw [hkey]
  omega

theorem searchAccFold_tf (seg : Seg) (del : Finset Nat) (f : String) (i : Int) :
    ∀ (ps : List Posting) (acc : SearchAcc) (m : SMatch),
      m ∈ (ps.foldl
        (fun a p =>
          match segExternalID seg p.docNum with
          | none => a
          | some extID =>
            if extID ∈ a.1 then a
            else (a.1 ++ [extID],
                  a.2 ++ [⟨extID, p.frequency, segFieldLength seg f p.docNum, f, i⟩]))
        acc).2 →
      m ∈ acc.2
      ∨ (m.tf, m.fieldLength) ∈ ps.map (fun p => (p.frequency, segFieldLength seg f p.docNum)) := by
  intro ps
  induction ps with
  | nil =>
    intro acc m hm
    exact Or.inl hm
  | cons p ps ih =>
    intro acc m hm
    rw [List.foldl_cons] at hm
    rcases ih _ m hm with hin | hmem
    · cases hext : segExternalID seg p.docNum with
      | none =>
        rw [hext] at hin
        exact Or.inl hin
      | some extID =>
        rw [hext] at hin
        dsimp only at hin
        by_cases hseen : extID ∈ acc.1
        · rw [if_pos hseen] at hin
          exact Or.inl hin
        · rw [if_neg hseen] at hin
          rcases List.mem_append.mp hin with h1 | h2
          · exact Or.inl h1
          · rw [List.mem_singleton] at h2
            subst h2
            exact Or.inr (by
              simp only [List.map_cons]
              exact List.mem_cons_self _ _)
    · exact Or.inr (by
        simp only [List.map_cons]
        exact List.mem_cons_of_mem _ hmem)

/-- C8: the spec says prefix, regex and fuzzy queries score every
matching document with `tf = 1.0`.  The code does not: (a) the merged
posting a prefix query produces for a document carries the document's
actual accumulated frequency over all prefix-matching terms
(`Segment.PrefixPostings` sums frequencies, and `prefixSearch` passes
`float64(p.Frequency)` to the scorer); (b) the per-term segment search
that single-term regex and fuzzy queries delegate to
(`searchSegmentField`) also hands each match the posting's own frequency
together with the matched field's length; (c) end to end, a prefix
search over a document containing "go go goat" scores the match with
tf 3, not 1. -/
theorem C8_derived_query_tf :
    (∀ (s : Seg) (pre f : String) (del : Finset Nat) (ps : List Posting) (q : Posting),
        prefPostings s pre f del = .ok ps → q ∈ ps →
        q.frequency = sumFreqs del q.docNum (prefDecodedLists (segFieldData s f) pre))
    ∧ (∀ (seg : Seg) (del : Finset Nat) (term f : String) (i : Int) (acc : SearchAcc)
          (m : SMatch),
        m ∈ (searchSegmentField seg del term f i acc).2 →
        m ∈ acc.2
        ∨ (m.tf, m.fieldLength) ∈ (segOkPostings seg term f del).map
            (fun p => (p.frequency, segFieldLength seg f p.docNum)))
    ∧ prefSearch [(segGo, ∅)] none "go" "" = [⟨"doc1", 3, 3, "title", 0⟩] := by
  refine ⟨?_, ?_, by decide⟩
  · intro s pre f del ps q hok hq
    unfold prefPostings at hok
    cases halist : alistGet s.fields f with
    | none =>
      rw [halist] at hok
      exact Except.noConfusion hok
    | some fd =>
      rw [halist] at hok
      have hps : ((prefDecodedLists fd pre).foldl (mergePostingList del) []).map (·.2) = ps := by
        injection hok
      subst hps
      have hfd : segFieldData s f = fd := by
        unfold segFieldData
        rw [halist]
        rfl
      rw [hfd]
      exact merged_freq_eq_sum del (prefDecodedLists fd pre) q hq
  · intro seg del term f i acc m hm
    unfold searchSegmentField at hm
    cases hs : segSearch seg term f del with
    | error e =>
      rw [hs] at hm
      exact Or.inl hm
    | ok ps =>
      rw [hs] at hm
      have hok : segOkPostings seg term f del = ps := by
        unfold segOkPostings
        rw [hs]
      rw [hok]
      exact searchAccFold_tf seg del f i ps acc m hm

theorem C8_derived_query_tf_witness :
    ((3 : Nat) = sumFreqs ∅ 0 (prefDecodedLists (segFieldData segGo "title") "go"))
    ∧ ((⟨"doc1", 2, 3, "title", 0⟩ : SMatch) ∈ (([], []) : SearchAcc).2
        ∨ (((2 : Nat), (3 : Nat)) ∈ (segOkPostings segGo "go" "title" ∅).map
            (fun p => (p.frequency, segFieldLength segGo "title" p.docNum)))) :=
  ⟨C8_derived_query_tf.1 segGo "go" "title" ∅ [⟨0, 3, [0, 1]⟩] ⟨0, 3, [0, 1]⟩
      (by decide) (by decide),
   C8_derived_query_tf.2.1 segGo ∅ "go" "title" 0 ([], []) ⟨"doc1", 2, 3, "title", 0⟩
      (by decide)⟩

/-- A document containing "go go goat" matched by the prefix query "go"
is scored with tf 3 (frequency 2 for "go" plus 1 for "goat"), not 1. -/
theorem C8_counterexample :
    prefSearch [(segGo, ∅)] none "go" "" = [⟨"doc1", 3, 3, "title", 0⟩]
    ∧ (prefSearch [(segGo, ∅)] none "go" "").map SMatch.tf = [3] := by
  refine ⟨by decide, by decide⟩
